import Mathlib

/-!
Verification of the sharded-ingestion and merge pipeline of the
finncampbell/fund-tracker repository.

The embedding covers:
- the inline shard merge of `.github/workflows/fetch-main.yml`
  (`combined = {}` then `combined.update(shard)` per shard file);
- the `set-chunks` partitioning step of
  `.github/workflows/mirror-fca-data.yml`
  (`size = math.ceil(total/n)`, `list(range(0, total, size))`);
- the per-shard rate budgets configured in
  `.github/workflows/mirror-fca-data.yml` (`RL_MAX_CALLS=$((50 / COUNT))`)
  and `.github/workflows/fetch-cf.yml` (`RL_MAX_CALLS: '45'` with
  `max-parallel: 1`);
- the Netlify function `netlify/functions/backfill.js`;
- components whose Python sources are referenced by the workflows but are
  not part of the material (rate_limiter.py, fetch_persons.py, fetch_cf.py,
  backfill_directors.py, merge_person_parts.py); these are modelled from
  the specification and are marked as such in their doc comments.
-/

set_option autoImplicit false

namespace FundTracker

/-- Identifiers (FRN / IRN register identifiers) are JSON object keys. -/
abbrev Ident := String

/-- A parsed shard JSON object: an association list of key/value pairs,
in insertion order, as `json.load` produces for one shard file. -/
abbrev Shard (V : Type) := List (Ident × V)

/-- A Python dict viewed extensionally: what `d.get(k)` returns. -/
abbrev Store (V : Type) := Ident → Option V

/-- The empty dict `{}`. -/
def emptyStore {V : Type} : Store V := fun _ => none

/-- Single-key dict assignment `d[k] = v`. -/
def dictInsert {V : Type} (st : Store V) (k : Ident) (v : V) : Store V :=
  fun k' => if k' = k then some v else st k'

/-- Single-key dict removal `d.pop(k, None)`. -/
def dictRemove {V : Type} (st : Store V) (k : Ident) : Store V :=
  fun k' => if k' = k then none else st k'

/-- Python `combined.update(shard)` from the "Merge main shards" step of
fetch-main.yml: every key of `shard` is written into the dict, in order,
later occurrences overriding earlier ones. -/
def dictUpdate {V : Type} (st : Store V) (p : Shard V) : Store V :=
  p.foldl (fun s kv => dictInsert s kv.1 kv.2) st

/-- The merge loop of the "Merge main shards" step of fetch-main.yml,
starting from an arbitrary pre-existing store state:
for each shard file, `combined.update(json.load(shard))`. -/
def mergeInto {V : Type} (st : Store V) (shards : List (Shard V)) : Store V :=
  shards.foldl dictUpdate st

/-- The merge exactly as run by the workflow: `combined = {}` then the
update loop over the globbed shard files. -/
def mergeMainShards {V : Type} (shards : List (Shard V)) : Store V :=
  mergeInto emptyStore shards

/-- Value of the last occurrence of key `k` in a shard association list;
this is what the key holds after all of the shard's entries are written
into a dict in order. -/
def lookupLast {V : Type} (k : Ident) : Shard V → Option V
  | [] => none
  | kv :: rest =>
    match lookupLast k rest with
    | some v => some v
    | none => if kv.1 = k then some kv.2 else none

/-- Value the merge loop leaves at key `k`: the value from the last shard
in processing order that contains `k`, if any. -/
def shardsLookup {V : Type} (k : Ident) : List (Shard V) → Option V
  | [] => none
  | p :: rest =>
    match shardsLookup k rest with
    | some v => some v
    | none => lookupLast k p

/-- Two association lists claim no common key. -/
def keysDisjoint {V W : Type} (p : List (Ident × V)) (q : List (Ident × W)) : Prop :=
  ∀ k ∈ p.map Prod.fst, k ∉ q.map Prod.fst

instance keysDisjointDecidable {V W : Type} (p : List (Ident × V))
    (q : List (Ident × W)) : Decidable (keysDisjoint p q) :=
  inferInstanceAs (Decidable (∀ k ∈ p.map Prod.fst, k ∉ q.map Prod.fst))

/-! The full Merger of the specification, with outcome classification and
the UnresolvedIndex.  The scripts that maintain it (fetch_persons.py,
fetch_cf.py and the merge_*_parts.py scripts they feed) are not part of
the source material, so it is modelled from the specification. -/

/-- Modelled from the spec: the tagged outcome of fetching one WorkItem
(fetch worker scripts are not in the source material).  `success` carries
the opaque payload; `error` carries a kind and message. -/
inductive FetchOutcome (V : Type) where
  | success (payload : V)
  | empty
  | error (kind msg : String)
deriving DecidableEq

/-- Kind tag recorded in the UnresolvedIndex: last-seen outcome was Empty
or Error. -/
inductive UnresolvedKind where
  | emptyKind
  | errorKind
deriving DecidableEq

/-- Modelled from the spec: one UnresolvedIndex entry, outcome kind plus
attempt counter. -/
structure UnresolvedEntry where
  kind : UnresolvedKind
  attempts : Nat
deriving DecidableEq

/-- The UnresolvedIndex as a store keyed by WorkItem ID. -/
abbrev UStore := Store UnresolvedEntry

/-- Attempt counter currently recorded for `k` (0 when absent). -/
def attemptsOf (ui : UStore) (k : Ident) : Nat :=
  match ui k with
  | some e => e.attempts
  | none => 0

/-- Modelled from the spec: the Merger rule for one (ID, outcome) pair
(the merging scripts are not in the source material).  Success upserts the
payload into the CanonicalStore and removes the ID from the
UnresolvedIndex; Empty and Error leave the CanonicalStore untouched and
upsert the ID into the UnresolvedIndex with the outcome kind and an
incremented attempt counter. -/
def mergeOutcome {V : Type} (cs : Store V) (ui : UStore) (k : Ident) :
    FetchOutcome V → Store V × UStore
  | .success p => (dictInsert cs k p, dictRemove ui k)
  | .empty => (cs, dictInsert ui k ⟨.emptyKind, attemptsOf ui k + 1⟩)
  | .error _ _ => (cs, dictInsert ui k ⟨.errorKind, attemptsOf ui k + 1⟩)

/-- A PartialStore with classified outcomes: one shard's (ID, outcome)
pairs in serialization order. -/
abbrev OutcomeShard (V : Type) := List (Ident × FetchOutcome V)

/-- Modelled from the spec: merging one PartialStore folds the per-pair
rule over its entries. -/
def mergeOutcomes {V : Type} (st : Store V × UStore) (p : OutcomeShard V) :
    Store V × UStore :=
  p.foldl (fun s kv => mergeOutcome s.1 s.2 kv.1 kv.2) st

/-- Modelled from the spec: merging a run folds over all its
PartialStores. -/
def mergeRun {V : Type} (st : Store V × UStore) (ps : List (OutcomeShard V)) :
    Store V × UStore :=
  ps.foldl mergeOutcomes st

/-! Selection modes of the Partitioner.  The flag handling lives in the
fetch worker scripts invoked by fetch-cf.yml / mirror-fca-data.yml, which
are not in the source material, so it is modelled from the
specification. -/

/-- Modelled from the spec: under `only_missing` the candidate set is the
input IDs not present as a Success in the CanonicalStore (the flag is
consumed by fetch_cf.py / fetch_persons.py, not in the source material).
The CanonicalStore holds only successful payloads, so presence of the key
means a recorded success. -/
def selectOnlyMissing {V : Type} (input : List Ident) (cs : Shard V) : List Ident :=
  input.filter fun id => (lookupLast id cs).isNone

/-- Modelled from the spec: under `retry_failed` the candidate set is the
input IDs present in the UnresolvedIndex (the flag is consumed by
fetch_cf.py / fetch_persons.py, not in the source material). -/
def selectRetryFailed {W : Type} (input : List Ident) (ui : Shard W) : List Ident :=
  input.filter fun id => (lookupLast id ui).isSome

/-! The set-chunks partitioning step of mirror-fca-data.yml. -/

/-- Python `math.ceil(total/n)` from the set-chunks step ("size").
For `n = 0` Python raises ZeroDivisionError; callers guard that case. -/
def chunkSize (total n : Nat) : Nat := (total + n - 1) / n

/-- The set-chunks step of mirror-fca-data.yml:
`size = math.ceil(total/n); list(range(0, total, size))`.
`none` models the exceptions the Python one-liner raises: a
ZeroDivisionError when `n = 0` and a ValueError from `range(0, total, 0)`
when the computed size is zero (which happens exactly when `total = 0`). -/
def chunkStarts (total n : Nat) : Option (List Nat) :=
  if n = 0 then none
  else
    let size := chunkSize total n
    if size = 0 then none
    else some (List.range' 0 ((total + size - 1) / size) size)

/-- Modelled from the spec: the worker handed start offset `s` processes
the contiguous block of candidate indices from `s` up to
`min (s + size) total` (the worker script fetch_persons.py that consumes
`--offset` is not in the source material; the spec prescribes contiguous
block assignment). -/
def chunkBlock (total size s : Nat) : List Nat :=
  List.range' s (min size (total - s)) 1

/-- The shard plan: the blocks of candidate indices for each start offset
produced by set-chunks. -/
def chunksOf (total n : Nat) : Option (List (List Nat)) :=
  (chunkStarts total n).map fun starts =>
    starts.map (chunkBlock total (chunkSize total n))

/-! Per-shard rate budget configuration from the workflows. -/

/-- The "Fetch persons chunk (throttled)" step of mirror-fca-data.yml:
`RL_MAX_CALLS=$((50 / COUNT))`, shell arithmetic being floor division,
where COUNT is the number of chunks actually created (all of which run
concurrently, the matrix having no parallelism cap). -/
def mirrorChunkRlMaxCalls (chunkCount : Nat) : Nat := 50 / chunkCount

/-- The window of the "Fetch persons chunk (throttled)" step:
`RL_WINDOW_S=10`. -/
def mirrorChunkRlWindowS : Nat := 10

/-- The "Fetch CF shard" step of fetch-cf.yml: `RL_MAX_CALLS: '45'`. -/
def cfRlMaxCalls : Nat := 45

/-- The "Fetch CF shard" step of fetch-cf.yml: `RL_WINDOW_S: '10'`. -/
def cfRlWindowS : Nat := 10

/-- fetch-cf.yml runs its shard matrix with `max-parallel: 1`: at most one
shard process exists at a time. -/
def cfMaxParallel : Nat := 1

/-! The RateLimiter.  rate_limiter.py is not in the source material; the
model follows the specification's algorithm over integer timestamps. -/

/-- Modelled from the spec: on every access the ledger is pruned of
timestamps older than `now - window_seconds` (rate_limiter.py is not in
the source material).  A timestamp `t` is retained iff `now ≤ t + w`. -/
def pruneLedger (w now : Nat) (ledger : List Nat) : List Nat :=
  ledger.filter fun t => decide (now ≤ t + w)

/-- Oldest (minimum) timestamp of a ledger, if non-empty. -/
def oldestIn : List Nat → Option Nat
  | [] => none
  | t :: ts =>
    match oldestIn ts with
    | none => some t
    | some m => some (min t m)

/-- Modelled from the spec: `acquire()` of rate_limiter.py (not in the
source material).  Load the ledger, discard timestamps older than
`now - w`; if fewer than `maxc` remain, record `now` and return it as the
grant time; otherwise sleep until the oldest retained timestamp exits the
window (time `m + w + 1`) and retry.  The fuel argument bounds the number
of retries; `ledger.length + 1` always suffices because each wait
strictly shrinks the retained window. -/
def acquireGo (maxc w : Nat) : Nat → List Nat → Nat → Option (Nat × List Nat)
  | 0, _, _ => none
  | fuel + 1, ledger, now =>
    let pruned := pruneLedger w now ledger
    if pruned.length < maxc then some (now, pruned ++ [now])
    else
      match oldestIn pruned with
      | none => none
      | some m => acquireGo maxc w fuel ledger (m + w + 1)

/-- Modelled from the spec: one `acquire()` call made at wall time `now`,
returning the grant time and the persisted ledger. -/
def acquire (maxc w : Nat) (ledger : List Nat) (now : Nat) :
    Option (Nat × List Nat) :=
  acquireGo maxc w (ledger.length + 1) ledger now

/-- State of one RateLimiter-driven worker process: the persisted ledger,
the wall clock (time of the last grant), and the log of all grants made
so far. -/
structure RLState where
  ledger : List Nat
  clock : Nat
  grants : List Nat
deriving DecidableEq

/-- One sequential caller invoking `acquire()` at wall time
`max clock req` (a call cannot be issued before the previous one
returned). -/
def rlStep (maxc w : Nat) (st : RLState) (req : Nat) : Option RLState :=
  match acquire maxc w st.ledger (max st.clock req) with
  | none => none
  | some (g, l') => some ⟨l', g, st.grants ++ [g]⟩

/-- A sequence of `acquire()` calls at the given request times. -/
def runLimiter (maxc w : Nat) (st : RLState) : List Nat → Option RLState
  | [] => some st
  | r :: rs =>
    match rlStep maxc w st r with
    | none => none
    | some st' => runLimiter maxc w st' rs

/-- The history invariant of a grant log: whenever a grant `g` was made,
strictly fewer than `maxc` of the grants already made lay inside the
window ending at `g`. -/
def HistOK (maxc w : Nat) (grants : List Nat) : Prop :=
  ∀ pre g suf, grants = pre ++ g :: suf →
    (pre.filter fun t => decide (g ≤ t + w)).length < maxc

/-- Invariant carried along a RateLimiter run: the persisted ledger is
exactly the grant log pruned at the current clock, every grant lies at or
before the clock, and every grant was made with strictly fewer than
`maxc` earlier grants inside its trailing window. -/
def RLInv (maxc w : Nat) (st : RLState) : Prop :=
  st.ledger = pruneLedger w st.clock st.grants
    ∧ (∀ t ∈ st.grants, t ≤ st.clock)
    ∧ HistOK maxc w st.grants

/-! The Netlify backfill dispatch handler, netlify/functions/backfill.js. -/

/-- The two fields the handler destructures from a non-null parsed
payload; a field is `none` when absent (or null) in the posted JSON.
A payload that is not an object (array, string, number, boolean)
destructures in JavaScript with both fields `undefined`, so it is
represented with both fields `none`. -/
structure BackfillBody where
  start_date : Option String
  end_date : Option String
deriving DecidableEq

/-- A successfully parsed body, as `JSON.parse(event.body)` can produce
it: the JSON value `null` (the body text "null"), on which the
destructuring `const (start_date, end_date) = payload` throws a
TypeError, or any other JSON value, of which the handler reads the two
date fields. -/
inductive ParsedBody where
  | nullValue
  | objValue (fields : BackfillBody)
deriving DecidableEq

/-- An incoming HTTP event: the method, and the parse result of the body
(`none` when `JSON.parse` throws). -/
structure BackfillEvent where
  httpMethod : String
  body : Option ParsedBody
deriving DecidableEq

/-- JavaScript truthiness of a string-valued field: absent (or null)
fields and empty strings are falsy. -/
def jsTruthy : Option String → Bool
  | none => false
  | some s => !(s == "")

/-- The handler of netlify/functions/backfill.js.  `dispatchStatus` is the
HTTP status the GitHub workflow-dispatch call would return; `resp.ok`
is status 200..299.  On `!resp.ok` the handler forwards `resp.status`;
on success it returns a literal 200.  The result is `none` when the
handler throws an uncaught exception and produces no response: the
try/catch covers only `JSON.parse`, so destructuring a
successfully-parsed null payload throws a TypeError past the handler
(the platform then answers with a 5xx of its own, not a handler
response). -/
def backfillHandler (ev : BackfillEvent) (dispatchStatus : Nat) : Option Nat :=
  if ev.httpMethod = "OPTIONS" then some 204
  else if ev.httpMethod ≠ "POST" then some 405
  else
    match ev.body with
    | none => some 400
    | some .nullValue => none
    | some (.objValue b) =>
      if jsTruthy b.start_date = false ∨ jsTruthy b.end_date = false then
        some 400
      else if 200 ≤ dispatchStatus ∧ dispatchStatus < 300 then some 200
      else some dispatchStatus

/-- Whether the handler reaches the GitHub workflow-dispatch call:
a POST whose body parses to a non-null payload whose two date fields are
both truthy. -/
def dispatchAttempted (ev : BackfillEvent) : Bool :=
  ev.httpMethod == "POST" &&
    (match ev.body with
     | some (.objValue b) => jsTruthy b.start_date && jsTruthy b.end_date
     | _ => false)

/-! The resumable backfill.  backfill_directors.py is not in the source
material; the model follows the specification. -/

/-- Modelled from the spec: one backfill batch step for one listed
WorkItem (backfill_directors.py is not in the source material).  The item
is fetched — `fetchOut` is the deterministic outcome the remote API gives
for an ID — and the outcome merged by the Merger rule. -/
def backfillStep {V : Type} (fetchOut : Ident → FetchOutcome V)
    (st : Store V × UStore) (id : Ident) : Store V × UStore :=
  mergeOutcome st.1 st.2 id (fetchOut id)

/-- Modelled from the spec: a backfill pass over the items the listing
endpoint reports for the date range, merged in listing order.  An
interrupted run is a pass over a prefix of the same item list. -/
def backfillRun {V : Type} (fetchOut : Ident → FetchOutcome V)
    (st : Store V × UStore) (ids : List Ident) : Store V × UStore :=
  ids.foldl (backfillStep fetchOut) st

/-! Characterization of the inline shard merge. -/

theorem dictUpdate_apply {V : Type} (st : Store V) (p : Shard V) (k : Ident) :
    dictUpdate st p k =
      match lookupLast k p with
      | some v => some v
      | none => st k := by
  induction p generalizing st with
  | nil => rfl
  | cons kv rest ih =>
    show dictUpdate (dictInsert st kv.1 kv.2) rest k = _
    rw [ih]
    cases h : lookupLast k rest with
    | some v => simp [lookupLast, h]
    | none =>
      by_cases hk : kv.1 = k
      · subst hk
        simp [lookupLast, h, dictInsert]
      · simp [lookupLast, h, hk, dictInsert, if_neg (Ne.symm hk)]

theorem mergeInto_apply {V : Type} (st : Store V) (shards : List (Shard V))
    (k : Ident) :
    mergeInto st shards k =
      match shardsLookup k shards with
      | some v => some v
      | none => st k := by
  induction shards generalizing st with
  | nil => rfl
  | cons p rest ih =>
    show mergeInto (dictUpdate st p) rest k = _
    rw [ih]
    cases h : shardsLookup k rest with
    | some v => simp [shardsLookup, h]
    | none =>
      simp only [shardsLookup, h]
      rw [dictUpdate_apply]

theorem lookupLast_some_mem_keys {V : Type} {k : Ident} {v : V} {p : Shard V}
    (h : lookupLast k p = some v) : k ∈ p.map Prod.fst := by
  induction p generalizing v with
  | nil => simp [lookupLast] at h
  | cons kv rest ih =>
    simp only [lookupLast] at h
    cases hr : lookupLast k rest with
    | some w =>
      simp only [List.map_cons, List.mem_cons]
      exact Or.inr (ih hr)
    | none =>
      rw [hr] at h
      by_cases hk : kv.1 = k
      · simp [hk]
      · simp [hk] at h

theorem keysDisjoint_symm {V W : Type} {p : List (Ident × V)}
    {q : List (Ident × W)} (h : keysDisjoint p q) : keysDisjoint q p :=
  fun k hq hp => h k hp hq

theorem shardsLookup_perm {V : Type} {s1 s2 : List (Shard V)}
    (hp : s1.Perm s2) (hd : s1.Pairwise keysDisjoint) (k : Ident) :
    shardsLookup k s1 = shardsLookup k s2 := by
  induction hp with
  | nil => rfl
  | cons x h ih =>
    simp only [shardsLookup]
    rw [ih (List.pairwise_cons.mp hd).2]
  | swap x y l =>
    have hxy : keysDisjoint y x :=
      (List.pairwise_cons.mp hd).1 x (by simp)
    simp only [shardsLookup]
    cases hsl : shardsLookup k l with
    | some v => rfl
    | none =>
      cases hx : lookupLast k x with
      | none => cases hy : lookupLast k y <;> rfl
      | some v =>
        cases hy : lookupLast k y with
        | none => rfl
        | some w =>
          exact absurd (lookupLast_some_mem_keys hx)
            (hxy k (lookupLast_some_mem_keys hy))
  | trans h1 h2 ih1 ih2 =>
    rw [ih1 hd, ih2 ((h1.pairwise_iff fun {a b} h => keysDisjoint_symm h).mp hd)]

/-! Frame, locality and characterization lemmas for the spec Merger. -/

theorem mergeOutcome_fst_other {V : Type} (cs : Store V) (ui : UStore)
    (k0 : Ident) (o : FetchOutcome V) {k : Ident} (h : k ≠ k0) :
    (mergeOutcome cs ui k0 o).1 k = cs k := by
  cases o <;> simp [mergeOutcome, dictInsert, h]

theorem mergeOutcome_snd_other {V : Type} (cs : Store V) (ui : UStore)
    (k0 : Ident) (o : FetchOutcome V) {k : Ident} (h : k ≠ k0) :
    (mergeOutcome cs ui k0 o).2 k = ui k := by
  cases o <;> simp [mergeOutcome, dictInsert, dictRemove, h]

theorem attemptsOf_congr {ui ui' : UStore} {k : Ident} (h : ui k = ui' k) :
    attemptsOf ui k = attemptsOf ui' k := by
  unfold attemptsOf
  rw [h]

theorem mergeOutcome_fst_local {V : Type} {cs cs' : Store V} (ui ui' : UStore)
    (k0 : Ident) (o : FetchOutcome V) {k : Ident} (h : cs k = cs' k) :
    (mergeOutcome cs ui k0 o).1 k = (mergeOutcome cs' ui' k0 o).1 k := by
  cases o <;> simp [mergeOutcome, dictInsert, h]

theorem mergeOutcome_snd_local {V : Type} (cs cs' : Store V) {ui ui' : UStore}
    (k0 : Ident) (o : FetchOutcome V) {k : Ident} (h : ui k = ui' k) :
    (mergeOutcome cs ui k0 o).2 k = (mergeOutcome cs' ui' k0 o).2 k := by
  cases o with
  | success p => simp [mergeOutcome, dictRemove, h]
  | empty =>
    by_cases hk : k = k0
    · subst hk
      simp [mergeOutcome, dictInsert, attemptsOf_congr h]
    · simp [mergeOutcome, dictInsert, hk, h]
  | error kind msg =>
    by_cases hk : k = k0
    · subst hk
      simp [mergeOutcome, dictInsert, attemptsOf_congr h]
    · simp [mergeOutcome, dictInsert, hk, h]

theorem lookupLast_eq_none {V : Type} {k : Ident} {p : Shard V}
    (h : k ∉ p.map Prod.fst) : lookupLast k p = none := by
  cases hl : lookupLast k p with
  | none => rfl
  | some v => exact absurd (lookupLast_some_mem_keys hl) h

theorem mergeOutcomes_untouched {V : Type} (st : Store V × UStore)
    (p : OutcomeShard V) {k : Ident} (h : k ∉ p.map Prod.fst) :
    (mergeOutcomes st p).1 k = st.1 k ∧ (mergeOutcomes st p).2 k = st.2 k := by
  induction p generalizing st with
  | nil => exact ⟨rfl, rfl⟩
  | cons kv rest ih =>
    have hk : k ≠ kv.1 := by
      intro hk
      exact h (by simp [hk])
    have hrest : k ∉ rest.map Prod.fst := fun hm => h (by simp [hm])
    have := ih (mergeOutcome st.1 st.2 kv.1 kv.2) hrest
    exact ⟨this.1.trans (mergeOutcome_fst_other _ _ _ _ hk),
      this.2.trans (mergeOutcome_snd_other _ _ _ _ hk)⟩

theorem mergeOutcomes_local {V : Type} {st st' : Store V × UStore}
    (p : OutcomeShard V) {k : Ident} (h1 : st.1 k = st'.1 k)
    (h2 : st.2 k = st'.2 k) :
    (mergeOutcomes st p).1 k = (mergeOutcomes st' p).1 k ∧
      (mergeOutcomes st p).2 k = (mergeOutcomes st' p).2 k := by
  induction p generalizing st st' with
  | nil => exact ⟨h1, h2⟩
  | cons kv rest ih =>
    exact ih (mergeOutcome_fst_local _ _ _ _ h1)
      (mergeOutcome_snd_local _ _ _ _ h2)

theorem mergeOutcomes_fst_char {V : Type} (st : Store V × UStore)
    (p : OutcomeShard V) (hnd : (p.map Prod.fst).Nodup) (k : Ident) :
    (mergeOutcomes st p).1 k =
      match lookupLast k p with
      | some (.success v) => some v
      | some _ => st.1 k
      | none => st.1 k := by
  induction p generalizing st with
  | nil => rfl
  | cons kv rest ih =>
    rw [List.map_cons, List.nodup_cons] at hnd
    by_cases hk : kv.1 = k
    · subst hk
      have hrest : kv.1 ∉ rest.map Prod.fst := hnd.1
      have hnone : lookupLast kv.1 rest = none := lookupLast_eq_none hrest
      have hunt := mergeOutcomes_untouched
        (mergeOutcome st.1 st.2 kv.1 kv.2) rest hrest
      show (mergeOutcomes (mergeOutcome st.1 st.2 kv.1 kv.2) rest).1 kv.1 = _
      rw [hunt.1]
      simp only [lookupLast, hnone, if_pos rfl]
      cases kv.2 <;> simp [mergeOutcome, dictInsert]
    · show (mergeOutcomes (mergeOutcome st.1 st.2 kv.1 kv.2) rest).1 k = _
      rw [ih _ hnd.2]
      have hne : k ≠ kv.1 := fun hh => hk hh.symm
      cases hr : lookupLast k rest with
      | some v =>
        simp only [lookupLast, hr]
        cases v with
        | success w => rfl
        | empty => exact mergeOutcome_fst_other _ _ _ _ hne
        | error kind msg => exact mergeOutcome_fst_other _ _ _ _ hne
      | none =>
        simp only [lookupLast, hr, if_neg hk]
        exact mergeOutcome_fst_other _ _ _ _ hne

theorem mergeOutcomes_snd_char {V : Type} (st : Store V × UStore)
    (p : OutcomeShard V) (hnd : (p.map Prod.fst).Nodup) (k : Ident) :
    (mergeOutcomes st p).2 k =
      match lookupLast k p with
      | some (.success _) => none
      | some .empty => some ⟨.emptyKind, attemptsOf st.2 k + 1⟩
      | some (.error _ _) => some ⟨.errorKind, attemptsOf st.2 k + 1⟩
      | none => st.2 k := by
  induction p generalizing st with
  | nil => rfl
  | cons kv rest ih =>
    rw [List.map_cons, List.nodup_cons] at hnd
    by_cases hk : kv.1 = k
    · subst hk
      have hrest : kv.1 ∉ rest.map Prod.fst := hnd.1
      have hnone : lookupLast kv.1 rest = none := lookupLast_eq_none hrest
      have hunt := mergeOutcomes_untouched
        (mergeOutcome st.1 st.2 kv.1 kv.2) rest hrest
      show (mergeOutcomes (mergeOutcome st.1 st.2 kv.1 kv.2) rest).2 kv.1 = _
      rw [hunt.2]
      simp only [lookupLast, hnone, if_pos rfl]
      cases kv.2 <;> simp [mergeOutcome, dictInsert, dictRemove]
    · show (mergeOutcomes (mergeOutcome st.1 st.2 kv.1 kv.2) rest).2 k = _
      rw [ih _ hnd.2]
      have hne : k ≠ kv.1 := fun hh => hk hh.symm
      have hsnd : (mergeOutcome st.1 st.2 kv.1 kv.2).2 k = st.2 k :=
        mergeOutcome_snd_other _ _ _ _ hne
      cases hr : lookupLast k rest with
      | some v =>
        simp only [lookupLast, hr]
        cases v <;> simp [attemptsOf_congr hsnd]
      | none =>
        simp only [lookupLast, hr, if_neg hk]
        exact hsnd

theorem mergeRun_local {V : Type} {st st' : Store V × UStore}
    (ps : List (OutcomeShard V)) {k : Ident} (h1 : st.1 k = st'.1 k)
    (h2 : st.2 k = st'.2 k) :
    (mergeRun st ps).1 k = (mergeRun st' ps).1 k ∧
      (mergeRun st ps).2 k = (mergeRun st' ps).2 k := by
  induction ps generalizing st st' with
  | nil => exact ⟨h1, h2⟩
  | cons p rest ih =>
    exact ih (mergeOutcomes_local p h1 h2).1 (mergeOutcomes_local p h1 h2).2

theorem mergeOutcomes_comm {V : Type} (st : Store V × UStore)
    (p q : OutcomeShard V) (hd : keysDisjoint p q) (k : Ident) :
    (mergeOutcomes (mergeOutcomes st p) q).1 k =
        (mergeOutcomes (mergeOutcomes st q) p).1 k ∧
      (mergeOutcomes (mergeOutcomes st p) q).2 k =
        (mergeOutcomes (mergeOutcomes st q) p).2 k := by
  by_cases hp : k ∈ p.map Prod.fst
  · have hq : k ∉ q.map Prod.fst := hd k hp
    have h1 := mergeOutcomes_untouched (mergeOutcomes st p) q hq
    have h2 := mergeOutcomes_untouched st q hq
    have h3 := @mergeOutcomes_local V (mergeOutcomes st q) st p k h2.1 h2.2
    exact ⟨h1.1.trans h3.1.symm, h1.2.trans h3.2.symm⟩
  · have h1 := mergeOutcomes_untouched (mergeOutcomes st q) p hp
    have h2 := mergeOutcomes_untouched st p hp
    have h3 := @mergeOutcomes_local V (mergeOutcomes st p) st q k h2.1 h2.2
    exact ⟨h3.1.trans h1.1.symm, h3.2.trans h1.2.symm⟩

theorem mergeRun_perm {V : Type} {ps1 ps2 : List (OutcomeShard V)}
    (hp : ps1.Perm ps2) (hd : ps1.Pairwise keysDisjoint) :
    ∀ (st : Store V × UStore) (k : Ident),
      (mergeRun st ps1).1 k = (mergeRun st ps2).1 k ∧
        (mergeRun st ps1).2 k = (mergeRun st ps2).2 k := by
  induction hp with
  | nil => exact fun _ _ => ⟨rfl, rfl⟩
  | cons x h ih =>
    exact fun st k => ih (List.pairwise_cons.mp hd).2 (mergeOutcomes st x) k
  | swap x y l =>
    intro st k
    have hyx : keysDisjoint y x := (List.pairwise_cons.mp hd).1 x (by simp)
    have hcomm := mergeOutcomes_comm st y x hyx k
    exact mergeRun_local l hcomm.1 hcomm.2
  | trans h1 h2 ih1 ih2 =>
    intro st k
    have hd2 := (h1.pairwise_iff fun {a b} h => keysDisjoint_symm h).mp hd
    exact ⟨(ih1 hd st k).1.trans (ih2 hd2 st k).1,
      (ih1 hd st k).2.trans (ih2 hd2 st k).2⟩

/-! Claim theorems for the merge operation (C1, C2, C7). -/

/-- C1, counterexample: merging the same PartialStore twice does not
yield the same UnresolvedIndex as merging it once.  The Merger rule
increments the attempt counter on every merge of an Empty or Error
outcome, so re-merging a PartialStore containing an Error raises the
recorded attempt count from 1 to 2. -/
theorem merge_retwice_changes_unresolved_index :
    (mergeOutcomes
        (mergeOutcomes ((emptyStore : Store Nat), (emptyStore : UStore))
          [("C", FetchOutcome.error "transient" "timeout")])
        [("C", FetchOutcome.error "transient" "timeout")]).2 "C" ≠
      (mergeOutcomes ((emptyStore : Store Nat), (emptyStore : UStore))
        [("C", FetchOutcome.error "transient" "timeout")]).2 "C" := by
  decide

/-- C1 (amended): merging is idempotent and order-independent on the
CanonicalStore, and idempotent on the UnresolvedIndex up to attempt
counters: (i) the inline shard-file merge of fetch-main.yml changes
nothing when re-run over the same shard files; (ii) it is invariant under
reordering of shard files with pairwise-disjoint ID sets; (iii) re-merging
the same PartialStore leaves the CanonicalStore and the membership and
outcome kinds of the UnresolvedIndex unchanged (only the attempt counters
grow); (iv) merging a run's PartialStores in any order yields the same
CanonicalStore and UnresolvedIndex when their ID sets are pairwise
disjoint. -/
theorem merge_idempotent_order_independent {V : Type} :
    (∀ (st : Store V) (shards : List (Shard V)) (k : Ident),
        mergeInto (mergeInto st shards) shards k = mergeInto st shards k)
    ∧ (∀ (st : Store V) (s1 s2 : List (Shard V)), s1.Perm s2 →
        s1.Pairwise keysDisjoint →
        ∀ k, mergeInto st s1 k = mergeInto st s2 k)
    ∧ (∀ (st : Store V × UStore) (P : OutcomeShard V),
        (P.map Prod.fst).Nodup → ∀ k,
        (mergeOutcomes (mergeOutcomes st P) P).1 k = (mergeOutcomes st P).1 k
        ∧ ((mergeOutcomes (mergeOutcomes st P) P).2 k).isSome
            = ((mergeOutcomes st P).2 k).isSome
        ∧ Option.map UnresolvedEntry.kind
              ((mergeOutcomes (mergeOutcomes st P) P).2 k)
            = Option.map UnresolvedEntry.kind ((mergeOutcomes st P).2 k))
    ∧ (∀ (st : Store V × UStore) (ps1 ps2 : List (OutcomeShard V)),
        ps1.Perm ps2 → ps1.Pairwise keysDisjoint → ∀ k,
        (mergeRun st ps1).1 k = (mergeRun st ps2).1 k
        ∧ (mergeRun st ps1).2 k = (mergeRun st ps2).2 k) := by
  refine ⟨?_, ?_, ?_, ?_⟩
  · intro st shards k
    rw [mergeInto_apply (mergeInto st shards) shards k,
      mergeInto_apply st shards k]
    cases shardsLookup k shards <;> rfl
  · intro st s1 s2 hp hd k
    rw [mergeInto_apply st s1 k, mergeInto_apply st s2 k,
      shardsLookup_perm hp hd k]
  · intro st P hnd k
    refine ⟨?_, ?_, ?_⟩
    · rw [mergeOutcomes_fst_char (mergeOutcomes st P) P hnd k,
        mergeOutcomes_fst_char st P hnd k]
      cases hl : lookupLast k P with
      | none => rfl
      | some o => cases o <;> rfl
    · rw [mergeOutcomes_snd_char (mergeOutcomes st P) P hnd k,
        mergeOutcomes_snd_char st P hnd k]
      cases hl : lookupLast k P with
      | none => rfl
      | some o => cases o <;> rfl
    · rw [mergeOutcomes_snd_char (mergeOutcomes st P) P hnd k,
        mergeOutcomes_snd_char st P hnd k]
      cases hl : lookupLast k P with
      | none => rfl
      | some o => cases o <;> rfl
  · intro st ps1 ps2 hp hd k
    exact mergeRun_perm hp hd st k

/-- C1, witness: the amended merge idempotence and order-independence at
concrete stores. -/
theorem merge_idempotent_order_independent_witness :
    mergeInto (mergeInto (emptyStore : Store Nat) [[("A", 1)], [("B", 2)]])
        [[("A", 1)], [("B", 2)]] "A"
      = mergeInto (emptyStore : Store Nat) [[("A", 1)], [("B", 2)]] "A"
    ∧ mergeInto (emptyStore : Store Nat) [[("A", 1)], [("B", 2)]] "A"
      = mergeInto (emptyStore : Store Nat) [[("B", 2)], [("A", 1)]] "A"
    ∧ (mergeOutcomes
          (mergeOutcomes ((emptyStore : Store Nat), (emptyStore : UStore))
            [("C", FetchOutcome.empty)]) [("C", FetchOutcome.empty)]).1 "C"
      = (mergeOutcomes ((emptyStore : Store Nat), (emptyStore : UStore))
          [("C", FetchOutcome.empty)]).1 "C" :=
  ⟨merge_idempotent_order_independent.1 _ _ _,
    merge_idempotent_order_independent.2.1 _ _ _ (by decide) (by decide) "A",
    (merge_idempotent_order_independent.2.2.1 _ _ (by decide) "C").1⟩

/-- C2, counterexample: when two PartialStores claim the same ID, the
inline "Merge main shards" step of fetch-main.yml does not abort with a
MergeConflict; it silently keeps the outcome of the shard file processed
last (here the value 2 from the second shard, not the value 1 from the
first). -/
theorem merge_conflict_silently_resolved :
    mergeMainShards [[("A", (1 : Nat))], [("A", 2)]] "A" = some 2
      ∧ (2 : Nat) ≠ 1 := by
  decide

/-- C2 (amended): when two PartialStores in the same run claim the same
WorkItem ID, the merge does not fail; `dict.update` silently resolves the
conflict last-write-wins, the combined store holding the value of the
shard file processed later. -/
theorem merge_overlap_last_write_wins {V : Type} (st : Store V)
    (P Q : Shard V) (k : Ident) (v : V) (h : lookupLast k Q = some v) :
    mergeInto st [P, Q] k = some v := by
  rw [mergeInto_apply]
  simp [shardsLookup, h]

/-- C2, witness: last-write-wins at a concrete overlapping pair of
shards. -/
theorem merge_overlap_last_write_wins_witness :
    lookupLast "A" [("A", (2 : Nat))] = some 2
      ∧ mergeInto (emptyStore : Store Nat) [[("A", 1)], [("A", 2)]] "A"
        = some 2 :=
  ⟨by decide, merge_overlap_last_write_wins _ _ _ _ _ (by decide)⟩

/-- C7: an Empty or Error outcome merged for an ID leaves the whole
CanonicalStore unchanged and upserts the ID into the UnresolvedIndex with
the outcome kind and an incremented attempt counter; every key at which
the CanonicalStore changes was merged with a Success outcome. -/
theorem merger_failure_frame {V : Type} :
    (∀ (cs : Store V) (ui : UStore) (k : Ident),
        (mergeOutcome cs ui k .empty).1 = cs
        ∧ (mergeOutcome cs ui k .empty).2 k
            = some ⟨.emptyKind, attemptsOf ui k + 1⟩)
    ∧ (∀ (cs : Store V) (ui : UStore) (k : Ident) (kind msg : String),
        (mergeOutcome cs ui k (.error kind msg)).1 = cs
        ∧ (mergeOutcome cs ui k (.error kind msg)).2 k
            = some ⟨.errorKind, attemptsOf ui k + 1⟩)
    ∧ (∀ (cs : Store V) (ui : UStore) (k : Ident) (o : FetchOutcome V)
        (k' : Ident),
        (∃ p, o = FetchOutcome.success p)
        ∨ (mergeOutcome cs ui k o).1 k' = cs k') := by
  refine ⟨?_, ?_, ?_⟩
  · intro cs ui k
    exact ⟨rfl, by simp [mergeOutcome, dictInsert]⟩
  · intro cs ui k kind msg
    exact ⟨rfl, by simp [mergeOutcome, dictInsert]⟩
  · intro cs ui k o k'
    cases o with
    | success p => exact Or.inl ⟨p, rfl⟩
    | empty => exact Or.inr rfl
    | error kind msg => exact Or.inr rfl

/-! Backfill: canonical-store characterization and resumability (C8). -/

theorem backfillStep_fst_self {V : Type} (fetchOut : Ident → FetchOutcome V)
    (st : Store V × UStore) (i : Ident) :
    (backfillStep fetchOut st i).1 i =
      match fetchOut i with
      | .success p => some p
      | _ => st.1 i := by
  cases h : fetchOut i <;> simp [backfillStep, mergeOutcome, h, dictInsert]

theorem backfillStep_fst_other {V : Type} (fetchOut : Ident → FetchOutcome V)
    (st : Store V × UStore) (i : Ident) {k : Ident} (h : k ≠ i) :
    (backfillStep fetchOut st i).1 k = st.1 k :=
  mergeOutcome_fst_other _ _ _ _ h

theorem backfillRun_fst_char {V : Type} (fetchOut : Ident → FetchOutcome V)
    (st : Store V × UStore) (ids : List Ident) (k : Ident) :
    (backfillRun fetchOut st ids).1 k =
      if k ∈ ids then
        match fetchOut k with
        | .success p => some p
        | _ => st.1 k
      else st.1 k := by
  induction ids generalizing st with
  | nil => simp [backfillRun]
  | cons i rest ih =>
    show (backfillRun fetchOut (backfillStep fetchOut st i) rest).1 k = _
    rw [ih]
    by_cases hk : k = i
    · subst hk
      rw [backfillStep_fst_self]
      cases h2 : fetchOut k <;> simp [h2]
    · rw [backfillStep_fst_other fetchOut st i hk]
      simp [List.mem_cons, hk]

/-- C8: backfill is resumable with no effect on the final CanonicalStore:
running a date range to completion after a run that was interrupted after
any number `n` of items produces the same CanonicalStore content as one
uninterrupted run, with no duplicated entries (the store is keyed by ID
and re-merged IDs upsert the same payload). -/
theorem backfill_resumable_canonical {V : Type}
    (fetchOut : Ident → FetchOutcome V) (st : Store V × UStore)
    (items : List Ident) (n : Nat) (k : Ident) :
    (backfillRun fetchOut (backfillRun fetchOut st (items.take n)) items).1 k
      = (backfillRun fetchOut st items).1 k := by
  rw [backfillRun_fst_char fetchOut (backfillRun fetchOut st (items.take n))
      items k,
    backfillRun_fst_char fetchOut st (items.take n) k,
    backfillRun_fst_char fetchOut st items k]
  by_cases hi : k ∈ items
  · simp only [hi, if_true]
    cases h2 : fetchOut k with
    | success p => rfl
    | empty => by_cases ht : k ∈ items.take n <;> simp [ht]
    | error kind msg => by_cases ht : k ∈ items.take n <;> simp [ht]
  · have ht : k ∉ items.take n := fun hm => hi (List.take_subset n items hm)
    simp [hi, ht]

/-! The set-chunks partition: union, disjointness and sizes (C3, C9). -/

theorem chunkBlock_flatten (total size : Nat) :
    ∀ (k s : Nat), total ≤ s + k * size →
      ((List.range' s k size).map (chunkBlock total size)).flatten
        = List.range' s (total - s) 1 := by
  intro k
  induction k with
  | zero =>
    intro s hle
    have h0 : total - s = 0 := by
      simp only [Nat.zero_mul, Nat.add_zero] at hle
      omega
    simp [h0]
  | succ k ih =>
    intro s hle
    rw [Nat.succ_mul] at hle
    have hle' : total ≤ (s + size) + k * size := by omega
    rw [List.range'_succ]
    simp only [List.map_cons, List.flatten_cons]
    rw [ih (s + size) hle']
    by_cases hc : total - s ≤ size
    · have h1 : min size (total - s) = total - s := by omega
      have h2 : total - (s + size) = 0 := by omega
      simp [chunkBlock, h1, h2]
    · have h1 : min size (total - s) = size := by omega
      have hsub : total - (s + size) = total - s - size := by omega
      have happ := List.range'_append s size (total - s - size) 1
      rw [one_mul] at happ
      rw [chunkBlock, h1, hsub, happ]
      have h3 : total - s - size + size = total - s := by omega
      rw [h3]

theorem chunkSize_pos {total n : Nat} (h1 : 0 < total) (h2 : 0 < n) :
    0 < chunkSize total n := by
  unfold chunkSize
  rw [Nat.lt_iff_add_one_le, Nat.zero_add, Nat.one_le_div_iff h2]
  omega

theorem total_le_numChunks_mul {total size : Nat} (h1 : 0 < total)
    (hs : 0 < size) : total ≤ (total + size - 1) / size * size := by
  have he : total + size - 1 = (total - 1) + size := by omega
  rw [he, Nat.add_div_right _ hs]
  have hlt : total - 1 < ((total - 1) / size + 1) * size := by
    have hdm := Nat.div_add_mod (total - 1) size
    have hm : (total - 1) % size < size := Nat.mod_lt _ hs
    calc total - 1 = size * ((total - 1) / size) + (total - 1) % size :=
          hdm.symm
      _ < size * ((total - 1) / size) + size := by omega
      _ = ((total - 1) / size + 1) * size := by ring
  omega

/-- C3, counterexample: with 10 candidates and a requested shard count of
4, set-chunks computes size = ceil(10/4) = 3 and start offsets
[0, 3, 6, 9], so the blocks are [0..2], [3..5], [6..8], [9]: the first
and last shard sizes differ by 2, refuting the claim that shard sizes
differ by at most one. -/
theorem set_chunks_sizes_not_within_one :
    chunksOf 10 4 = some [[0, 1, 2], [3, 4, 5], [6, 7, 8], [9]]
      ∧ ¬(∀ a ∈ [[(0 : Nat), 1, 2], [3, 4, 5], [6, 7, 8], [9]],
            ∀ b ∈ [[(0 : Nat), 1, 2], [3, 4, 5], [6, 7, 8], [9]],
              a.length ≤ b.length + 1) := by
  decide

/-- C3 (amended): for every non-empty candidate list and shard count at
least 1, set-chunks produces contiguous blocks whose concatenation is
exactly the candidate index range (no duplicates, no omissions), which
are pairwise disjoint and duplicate-free, each of size at most
ceil(total/shard_count); the assignment is a pure function of the inputs,
hence deterministic.  Shard sizes need not differ by at most one: all
blocks except the last have size ceil(total/shard_count) and the last
holds the remainder. -/
theorem set_chunks_partition_amended (total n : Nat) (h1 : 0 < total)
    (h2 : 0 < n) :
    ∃ cs, chunksOf total n = some cs
      ∧ cs.flatten = List.range total
      ∧ List.Pairwise List.Disjoint cs
      ∧ (∀ c ∈ cs, c.Nodup)
      ∧ ∀ c ∈ cs, c.length ≤ chunkSize total n := by
  have hs : 0 < chunkSize total n := chunkSize_pos h1 h2
  have hcs : chunksOf total n =
      some ((List.range' 0 ((total + chunkSize total n - 1) / chunkSize total n)
        (chunkSize total n)).map (chunkBlock total (chunkSize total n))) := by
    unfold chunksOf chunkStarts
    rw [if_neg (Nat.pos_iff_ne_zero.mp h2), if_neg (Nat.pos_iff_ne_zero.mp hs)]
    rfl
  have hflat :
      ((List.range' 0 ((total + chunkSize total n - 1) / chunkSize total n)
        (chunkSize total n)).map (chunkBlock total (chunkSize total n))).flatten
        = List.range total := by
    rw [chunkBlock_flatten total (chunkSize total n) _ 0
      (by simpa using total_le_numChunks_mul h1 hs)]
    rw [Nat.sub_zero, ← List.range_eq_range']
  have hnd : (((List.range' 0
      ((total + chunkSize total n - 1) / chunkSize total n)
      (chunkSize total n)).map (chunkBlock total (chunkSize total n))).flatten).Nodup := by
    rw [hflat]
    exact List.nodup_range total
  refine ⟨_, hcs, hflat, (List.nodup_flatten.mp hnd).2,
    (List.nodup_flatten.mp hnd).1, ?_⟩
  intro c hc
  rcases List.mem_map.mp hc with ⟨s, _, rfl⟩
  rw [chunkBlock, List.length_range']
  exact Nat.min_le_left _ _

/-- C3, witness: the amended partition properties at 5 candidates split
into 2 shards. -/
theorem set_chunks_partition_amended_witness :
    0 < 5 ∧ 0 < 2
      ∧ ∃ cs, chunksOf 5 2 = some cs
          ∧ cs.flatten = List.range 5
          ∧ List.Pairwise List.Disjoint cs
          ∧ (∀ c ∈ cs, c.Nodup)
          ∧ ∀ c ∈ cs, c.length ≤ chunkSize 5 2 :=
  ⟨by decide, by decide, set_chunks_partition_amended 5 2 (by decide) (by decide)⟩

/-- C9 (code bug in set-chunks): when the candidate set is empty the
partition step does not return zero shards; the computed size is
ceil(0/n) = 0 and `range(0, 0, 0)` raises a ValueError (step must not be
zero), modelled here as `none`; for n = 0 the ceil division itself
raises. -/
theorem set_chunks_empty_candidates_raises :
    ∀ n : Nat, chunkStarts 0 n = none ∧ chunksOf 0 n = none := by
  intro n
  cases n with
  | zero => exact ⟨rfl, rfl⟩
  | succ m =>
    have h0 : chunkSize 0 (m + 1) = 0 := Nat.div_eq_of_lt (by omega)
    constructor
    · unfold chunkStarts
      simp [h0]
    · unfold chunksOf chunkStarts
      simp [h0]

/-! Per-shard budget division (C5). -/

/-- C5: the per-shard rate budget is the floor of the global budget over
the number of concurrently running shard processes: mirror-fca-data.yml
computes `RL_MAX_CALLS=$((50 / COUNT))` (shell floor division) for its
COUNT concurrent chunk workers, and fetch-cf.yml sets 45 calls per window
for its single concurrently running shard (`max-parallel: 1`), which is
floor(45/1); in both cases the summed per-process budgets stay within the
global limit. -/
theorem per_shard_budget_floor_division :
    (∀ chunkCount : Nat, mirrorChunkRlMaxCalls chunkCount = 50 / chunkCount)
    ∧ (∀ chunkCount : Nat,
        chunkCount * mirrorChunkRlMaxCalls chunkCount ≤ 50)
    ∧ cfRlMaxCalls = 45 / cfMaxParallel
    ∧ cfMaxParallel * cfRlMaxCalls ≤ 45 := by
  refine ⟨fun _ => rfl, fun c => ?_, rfl, by decide⟩
  rw [mirrorChunkRlMaxCalls, Nat.mul_comm]
  exact Nat.div_mul_le_self 50 c

/-! Selection-mode scoping (C6). -/

/-- C6: only_missing selects exactly the input IDs with no recorded
success in the CanonicalStore; when the UnresolvedIndex's IDs all come
from the input list, retry_failed selects exactly the UnresolvedIndex
membership, and when no ID has both a success and an unresolved entry, no
successful ID is ever re-included in a retry_failed run. -/
theorem selection_mode_scoping {V W : Type} :
    (∀ (input : List Ident) (cs : Shard V) (id : Ident),
        id ∈ selectOnlyMissing input cs ↔
          id ∈ input ∧ lookupLast id cs = none)
    ∧ (∀ (input : List Ident) (ui : Shard W),
        (∀ k ∈ ui.map Prod.fst, k ∈ input) →
        ∀ id, id ∈ selectRetryFailed input ui ↔
          (lookupLast id ui).isSome = true)
    ∧ (∀ (input : List Ident) (cs : Shard V) (ui : Shard W),
        keysDisjoint cs ui →
        ∀ id, (lookupLast id cs).isSome = true →
          id ∉ selectRetryFailed input ui) := by
  refine ⟨?_, ?_, ?_⟩
  · intro input cs id
    simp [selectOnlyMissing, List.mem_filter, Option.isNone_iff_eq_none]
  · intro input ui h id
    simp only [selectRetryFailed, List.mem_filter]
    constructor
    · exact fun hmem => hmem.2
    · intro hsome
      rcases Option.isSome_iff_exists.mp hsome with ⟨v, hv⟩
      exact ⟨h id (lookupLast_some_mem_keys hv), hsome⟩
  · intro input cs ui hd id hcs hmem
    rcases Option.isSome_iff_exists.mp hcs with ⟨v, hv⟩
    have hnone : lookupLast id ui = none :=
      lookupLast_eq_none (hd id (lookupLast_some_mem_keys hv))
    rcases List.mem_filter.mp hmem with ⟨_, hsome⟩
    rw [hnone] at hsome
    exact Bool.false_ne_true hsome

/-- C6, witness: selection scoping at a concrete store where A and B are
successes, C is unresolved and D was never fetched. -/
theorem selection_mode_scoping_witness :
    (∀ k ∈ [("C", (0 : Nat))].map Prod.fst, k ∈ ["A", "B", "C", "D"])
    ∧ (∀ id, id ∈ selectRetryFailed ["A", "B", "C", "D"] [("C", (0 : Nat))] ↔
        (lookupLast id [("C", (0 : Nat))]).isSome = true)
    ∧ keysDisjoint [("A", (1 : Nat)), ("B", 2)] [("C", (0 : Nat))]
    ∧ (∀ id, (lookupLast id [("A", (1 : Nat)), ("B", 2)]).isSome = true →
        id ∉ selectRetryFailed ["A", "B", "C", "D"] [("C", (0 : Nat))]) :=
  ⟨by decide,
    (selection_mode_scoping (V := Nat) (W := Nat)).2.1 _ _ (by decide),
    by decide,
    (selection_mode_scoping (V := Nat) (W := Nat)).2.2 _ _ _ (by decide)⟩

/-! The backfill dispatch handler (C10). -/

/-- C10, counterexample: a POST whose body is the valid JSON text "null"
does not get a 400 response: `JSON.parse` succeeds with the payload
null, and the destructuring of the two date fields throws an uncaught
TypeError outside the try/catch, so the handler crashes without
producing a response (the platform answers with its own 5xx). -/
theorem backfill_null_payload_crashes :
    backfillHandler ⟨"POST", some ParsedBody.nullValue⟩ 500 = none
      ∧ (none : Option Nat) ≠ some 400 := by
  decide

/-- C10 (amended): the handler of netlify/functions/backfill.js answers
OPTIONS with 204; any method other than OPTIONS or POST with 405; a POST
whose body fails to parse with 400; a POST whose body parses to JSON
null crashes with an uncaught TypeError (no handler response) instead of
returning 400; a POST whose parsed body is non-null but lacks start_date
or end_date with 400; the GitHub workflow dispatch is attempted only
when both dates are present, and the handler returns 200 exactly when
the dispatch call succeeds. -/
theorem backfill_handler_contract :
    (∀ (ev : BackfillEvent) (ds : Nat), ev.httpMethod = "OPTIONS" →
        backfillHandler ev ds = some 204)
    ∧ (∀ (ev : BackfillEvent) (ds : Nat), ev.httpMethod ≠ "OPTIONS" →
        ev.httpMethod ≠ "POST" → backfillHandler ev ds = some 405)
    ∧ (∀ (ev : BackfillEvent) (ds : Nat), ev.httpMethod = "POST" →
        ev.body = none → backfillHandler ev ds = some 400)
    ∧ (∀ (ev : BackfillEvent) (ds : Nat), ev.httpMethod = "POST" →
        ev.body = some ParsedBody.nullValue → backfillHandler ev ds = none)
    ∧ (∀ (ev : BackfillEvent) (ds : Nat) (b : BackfillBody),
        ev.httpMethod = "POST" → ev.body = some (ParsedBody.objValue b) →
        (b.start_date = none ∨ b.end_date = none) →
        backfillHandler ev ds = some 400)
    ∧ (∀ ev : BackfillEvent, dispatchAttempted ev = true →
        ∃ b s e, ev.body = some (ParsedBody.objValue b)
          ∧ b.start_date = some s ∧ b.end_date = some e)
    ∧ (∀ (ev : BackfillEvent) (ds : Nat), dispatchAttempted ev = true →
        (backfillHandler ev ds = some 200 ↔ 200 ≤ ds ∧ ds < 300))
    ∧ (∀ (ev : BackfillEvent) (ds : Nat), dispatchAttempted ev = false →
        backfillHandler ev ds ≠ some 200) := by
  refine ⟨?_, ?_, ?_, ?_, ?_, ?_, ?_, ?_⟩
  · intro ev ds h
    simp [backfillHandler, h]
  · intro ev ds h1 h2
    simp [backfillHandler, h1, h2]
  · intro ev ds h1 h2
    simp [backfillHandler, h1, h2]
  · intro ev ds h1 h2
    simp [backfillHandler, h1, h2]
  · intro ev ds b h1 h2 h3
    rcases h3 with h3 | h3 <;>
      simp [backfillHandler, h1, h2, h3, jsTruthy]
  · intro ev h
    simp only [dispatchAttempted, Bool.and_eq_true, beq_iff_eq] at h
    rcases h with ⟨hm, hb⟩
    cases hbody : ev.body with
    | none => rw [hbody] at hb; exact absurd hb (by simp)
    | some pb =>
      rw [hbody] at hb
      cases pb with
      | nullValue => exact absurd hb (by simp)
      | objValue b =>
        simp only [Bool.and_eq_true] at hb
        cases hs : b.start_date with
        | none => rw [hs] at hb; exact absurd hb.1 (by simp [jsTruthy])
        | some s =>
          cases he : b.end_date with
          | none => rw [he] at hb; exact absurd hb.2 (by simp [jsTruthy])
          | some e => exact ⟨b, s, e, rfl, hs, he⟩
  · intro ev ds h
    simp only [dispatchAttempted, Bool.and_eq_true, beq_iff_eq] at h
    rcases h with ⟨hm, hb⟩
    cases hbody : ev.body with
    | none => rw [hbody] at hb; exact absurd hb (by simp)
    | some pb =>
      rw [hbody] at hb
      cases pb with
      | nullValue => exact absurd hb (by simp)
      | objValue b =>
        simp only [Bool.and_eq_true] at hb
        by_cases hok : 200 ≤ ds ∧ ds < 300
        · simp [backfillHandler, hm, hbody, hb.1, hb.2, hok]
        · have hne : ds ≠ 200 := by omega
          simp [backfillHandler, hm, hbody, hb.1, hb.2, hok, hne]
  · intro ev ds h
    by_cases hm : ev.httpMethod = "OPTIONS"
    · simp [backfillHandler, hm]
    · by_cases hp : ev.httpMethod = "POST"
      · cases hbody : ev.body with
        | none => simp [backfillHandler, hm, hp, hbody]
        | some pb =>
          cases pb with
          | nullValue => simp [backfillHandler, hm, hp, hbody]
          | objValue b =>
            simp only [dispatchAttempted, hbody, hp, Bool.and_eq_true,
              beq_iff_eq, Bool.and_eq_false_iff] at h
            rcases h with h | h
            · simp at h
            · rcases h with h | h <;>
                simp [backfillHandler, hm, hp, hbody, h]
      · simp [backfillHandler, hm, hp]

/-- C10, witness: the handler's responses at concrete events, the
parsed-null crash included. -/
theorem backfill_handler_contract_witness :
    backfillHandler ⟨"OPTIONS", none⟩ 500 = some 204
    ∧ backfillHandler ⟨"GET", none⟩ 500 = some 405
    ∧ backfillHandler ⟨"POST", none⟩ 500 = some 400
    ∧ backfillHandler ⟨"POST", some ParsedBody.nullValue⟩ 500 = none
    ∧ backfillHandler
        ⟨"POST", some (ParsedBody.objValue ⟨none, some "2024-01-02"⟩)⟩ 500
        = some 400
    ∧ (backfillHandler
          ⟨"POST", some (ParsedBody.objValue
            ⟨some "2024-01-01", some "2024-01-02"⟩)⟩ 204 = some 200
        ↔ 200 ≤ 204 ∧ 204 < 300)
    ∧ backfillHandler ⟨"GET", none⟩ 500 ≠ some 200 :=
  ⟨backfill_handler_contract.1 _ _ rfl,
    backfill_handler_contract.2.1 _ _ (by decide) (by decide),
    backfill_handler_contract.2.2.1 _ _ rfl rfl,
    backfill_handler_contract.2.2.2.1 _ _ rfl rfl,
    backfill_handler_contract.2.2.2.2.1 _ _ _ rfl rfl (Or.inl rfl),
    backfill_handler_contract.2.2.2.2.2.2.1 _ _ (by decide),
    backfill_handler_contract.2.2.2.2.2.2.2 _ _ (by decide)⟩

/-! The RateLimiter sliding-window bound (C4). -/

theorem oldestIn_mem : ∀ {l : List Nat} {m : Nat}, oldestIn l = some m → m ∈ l := by
  intro l
  induction l with
  | nil => intro m h; simp [oldestIn] at h
  | cons t ts ih =>
    intro m h
    simp only [oldestIn] at h
    cases ho : oldestIn ts with
    | none =>
      rw [ho] at h
      injection h with h
      subst h
      exact List.mem_cons_self t ts
    | some m' =>
      rw [ho] at h
      injection h with h
      rcases Nat.le_total t m' with hle | hle
      · rw [Nat.min_eq_left hle] at h
        subst h
        exact List.mem_cons_self t ts
      · rw [Nat.min_eq_right hle] at h
        subst h
        exact List.mem_cons_of_mem t (ih ho)

theorem pruneLedger_pruneLedger {w now' now : Nat} (h : now' ≤ now)
    (l : List Nat) :
    pruneLedger w now (pruneLedger w now' l) = pruneLedger w now l := by
  unfold pruneLedger
  rw [List.filter_filter]
  refine List.filter_congr fun t _ => ?_
  by_cases h1 : now ≤ t + w
  · have h2 : now' ≤ t + w := le_trans h h1
    simp [h1, h2]
  · simp [h1]

theorem acquireGo_sound {maxc w : Nat} :
    ∀ (fuel : Nat) (ledger : List Nat) (now g : Nat) (l' : List Nat),
      acquireGo maxc w fuel ledger now = some (g, l') →
      now ≤ g ∧ l' = pruneLedger w g ledger ++ [g]
        ∧ (pruneLedger w g ledger).length < maxc := by
  intro fuel
  induction fuel with
  | zero =>
    intro ledger now g l' h
    exact absurd h (by simp [acquireGo])
  | succ fuel ih =>
    intro ledger now g l' h
    simp only [acquireGo] at h
    by_cases hlt : (pruneLedger w now ledger).length < maxc
    · rw [if_pos hlt] at h
      have hp := Option.some.inj h
      have hg : now = g := congrArg Prod.fst hp
      have hl : pruneLedger w now ledger ++ [now] = l' := congrArg Prod.snd hp
      subst hg
      exact ⟨le_refl now, hl.symm, hlt⟩
    · rw [if_neg hlt] at h
      cases ho : oldestIn (pruneLedger w now ledger) with
      | none =>
        rw [ho] at h
        exact absurd h (by simp)
      | some m =>
        rw [ho] at h
        have hrec := ih ledger (m + w + 1) g l' h
        have hm : m ∈ List.filter (fun t => decide (now ≤ t + w)) ledger :=
          oldestIn_mem ho
        have hnow : now ≤ m + w := by
          have hpm := List.of_mem_filter hm
          simpa using hpm
        exact ⟨le_trans (by omega) hrec.1, hrec.2.1, hrec.2.2⟩

theorem snoc_eq_append_cons {α : Type} {G pre suf : List α} {g x : α}
    (h : G ++ [g] = pre ++ x :: suf) :
    (pre = G ∧ x = g ∧ suf = [])
      ∨ ∃ suf', G = pre ++ x :: suf' ∧ suf = suf' ++ [g] := by
  rcases List.eq_nil_or_concat suf with rfl | ⟨L, b, rfl⟩
  · have hinj := List.append_inj' h (by simp)
    have hx : x = g := by simpa using hinj.2.symm
    exact Or.inl ⟨hinj.1.symm, hx, rfl⟩
  · rw [List.concat_eq_append] at h
    have h2 : G ++ [g] = (pre ++ x :: L) ++ [b] := by
      rw [h]
      simp
    have hinj := List.append_inj' h2 rfl
    have hb : g = b := by simpa using hinj.2
    exact Or.inr ⟨L, hinj.1, by rw [List.concat_eq_append, hb]⟩

theorem histOK_append {maxc w : Nat} {G : List Nat} {g : Nat}
    (hG : HistOK maxc w G)
    (hg : (G.filter fun t => decide (g ≤ t + w)).length < maxc) :
    HistOK maxc w (G ++ [g]) := by
  intro pre x suf h
  rcases snoc_eq_append_cons h with ⟨rfl, rfl, rfl⟩ | ⟨suf', hG', _⟩
  · exact hg
  · exact hG pre x suf' hG'

theorem histOK_of_append {maxc w : Nat} {G : List Nat} {g : Nat}
    (h : HistOK maxc w (G ++ [g])) : HistOK maxc w G :=
  fun pre x suf hd => h pre x (suf ++ [g]) (by rw [hd]; simp)

theorem rlStep_inv {maxc w : Nat} {st st' : RLState} {req : Nat}
    (hinv : RLInv maxc w st) (h : rlStep maxc w st req = some st') :
    RLInv maxc w st' := by
  unfold rlStep at h
  cases hacq : acquire maxc w st.ledger (max st.clock req) with
  | none =>
    rw [hacq] at h
    exact absurd h (by simp)
  | some p =>
    rw [hacq] at h
    obtain ⟨g, l'⟩ := p
    have hst' : st' = ⟨l', g, st.grants ++ [g]⟩ := (Option.some.inj h).symm
    have hs := acquireGo_sound _ st.ledger (max st.clock req) g l' hacq
    have hclk : st.clock ≤ g := le_trans (Nat.le_max_left _ _) hs.1
    have hprune : pruneLedger w g st.ledger = pruneLedger w g st.grants := by
      rw [hinv.1, pruneLedger_pruneLedger hclk]
    subst hst'
    refine ⟨?_, ?_, ?_⟩
    · show l' = pruneLedger w g (st.grants ++ [g])
      rw [hs.2.1, hprune]
      unfold pruneLedger
      rw [List.filter_append]
      simp
    · intro t ht
      show t ≤ g
      rcases List.mem_append.mp ht with ht | ht
      · exact le_trans (hinv.2.1 t ht) hclk
      · simp at ht
        omega
    · refine histOK_append hinv.2.2 ?_
      have := hs.2.2
      rw [hprune] at this
      exact this

theorem runLimiter_inv {maxc w : Nat} :
    ∀ (reqs : List Nat) (st st' : RLState), RLInv maxc w st →
      runLimiter maxc w st reqs = some st' → RLInv maxc w st' := by
  intro reqs
  induction reqs with
  | nil =>
    intro st st' hinv h
    exact (Option.some.inj h) ▸ hinv
  | cons r rs ih =>
    intro st st' hinv h
    simp only [runLimiter] at h
    cases hstep : rlStep maxc w st r with
    | none =>
      rw [hstep] at h
      exact absurd h (by simp)
    | some st1 =>
      rw [hstep] at h
      exact ih st1 st' (rlStep_inv hinv hstep) h

theorem filter_length_mono {α : Type} {p q : α → Bool} :
    ∀ {l : List α}, (∀ x ∈ l, p x = true → q x = true) →
      (l.filter p).length ≤ (l.filter q).length := by
  intro l
  induction l with
  | nil => intro _; exact Nat.le_refl 0
  | cons a l ih =>
    intro h
    have hrest := ih fun x hx => h x (List.mem_cons_of_mem a hx)
    by_cases hp : p a = true
    · rw [List.filter_cons, if_pos hp, List.filter_cons,
        if_pos (h a (List.mem_cons_self a l) hp)]
      simpa using hrest
    · rw [List.filter_cons, if_neg hp, List.filter_cons]
      by_cases hq : q a = true
      · rw [if_pos hq]
        exact le_trans hrest (by simp)
      · rw [if_neg hq]
        exact hrest

theorem histOK_window_bound {maxc w : Nat} :
    ∀ {G : List Nat}, HistOK maxc w G → ∀ a : Nat,
      (G.filter fun t => decide (a ≤ t ∧ t ≤ a + w)).length ≤ maxc := by
  intro G
  induction G using List.reverseRecOn with
  | nil => intro _ a; exact Nat.zero_le maxc
  | append_singleton G g ih =>
    intro h a
    rw [List.filter_append]
    by_cases hg : a ≤ g ∧ g ≤ a + w
    · have hwin : ∀ x ∈ G, decide (a ≤ x ∧ x ≤ a + w) = true →
          decide (g ≤ x + w) = true := by
        intro x _ hx
        have hx' := of_decide_eq_true hx
        exact decide_eq_true (by omega)
      have hlt : (G.filter fun t => decide (a ≤ t ∧ t ≤ a + w)).length < maxc :=
        lt_of_le_of_lt (filter_length_mono hwin) (h G g [] rfl)
      have hone : ((([g] : List Nat)).filter
          fun t => decide (a ≤ t ∧ t ≤ a + w)).length ≤ 1 := by
        simp [List.filter_cons]
        split <;> simp
      rw [List.length_append]
      omega
    · have hzero : ((([g] : List Nat)).filter
          fun t => decide (a ≤ t ∧ t ≤ a + w)) = [] := by
        simp [List.filter_cons, hg]
      rw [hzero, List.append_nil]
      exact ih (histOK_of_append h) a

/-- C4: over any sliding window of `w` time units, a RateLimiter run
started from a fresh ledger grants at most `maxc` acquisitions: every
grant is made only after pruning the ledger to the trailing window and
observing fewer than `maxc` retained timestamps, otherwise waiting until
the oldest retained timestamp exits the window. -/
theorem rate_limiter_sliding_window_bound (maxc w : Nat)
    (reqs : List Nat) (st : RLState)
    (h : runLimiter maxc w ⟨[], 0, []⟩ reqs = some st) (a : Nat) :
    (st.grants.filter fun t => decide (a ≤ t ∧ t ≤ a + w)).length ≤ maxc := by
  have hinit : RLInv maxc w ⟨[], 0, []⟩ := by
    refine ⟨rfl, by simp, ?_⟩
    intro pre g suf hd
    exact absurd hd (by simp)
  exact histOK_window_bound (runLimiter_inv reqs _ st hinit h).2.2 a

/-- C4, witness: with a budget of 2 calls per 10 time units, three
back-to-back requests at time 0 grant twice at 0 and once at 11, and any
window of length 10 holds at most 2 grants. -/
theorem rate_limiter_sliding_window_bound_witness :
    runLimiter 2 10 ⟨[], 0, []⟩ [0, 0, 0] = some ⟨[11], 11, [0, 0, 11]⟩
      ∧ (([0, 0, 11] : List Nat).filter
          fun t => decide (0 ≤ t ∧ t ≤ 0 + 10)).length ≤ 2 :=
  ⟨by decide, rate_limiter_sliding_window_bound 2 10 [0, 0, 0]
    ⟨[11], 11, [0, 0, 11]⟩ (by decide) 0⟩

end FundTracker
